import Mathlib

/-!
Verification development for the selector-resolution, caching and
self-healing test-execution engine of the mobile-app-tester repository.

JavaScript strings are modelled as `List Char`; machine behaviour that the
claims depend on (single-space splitting, case-insensitive prefix tests,
JS truthiness of strings, object key/value stores with insertion order)
is embedded explicitly.  Sources:

* `src/backend/src/test-runner/command_utils.js`
  (`extractElementName`, `determineLocatorStrategy`, `createFindElement`,
  `executeCommand`)
* `src/backend/src/test-runner/test_executor.js` (`executeTest`)
* `src/backend/src/test-runner/context_utils.js` (`switchToWebview`,
  `switchToNative`)
* the POM cache module (`loadCache`, `saveCache`).
-/

/-! ### Basic JS-string helpers on `List Char` -/

/-- Characters the JS `String.prototype.trim` removes, restricted to the ASCII
whitespace characters: space, tab, LF, VT, FF, CR. -/
def isJsWs (c : Char) : Bool :=
  c == ' ' || c == Char.ofNat 9 || c == Char.ofNat 10 ||
  c == Char.ofNat 11 || c == Char.ofNat 12 || c == Char.ofNat 13

/-- Model of JS `s.trim()`. -/
def jsTrim (l : List Char) : List Char :=
  ((l.dropWhile isJsWs).reverse.dropWhile isJsWs).reverse

/-- Model of JS `s.toLowerCase()` (ASCII range, which covers every string the
engine compares case-insensitively). -/
def jsToLower (l : List Char) : List Char :=
  l.map Char.toLower

/-- `startsWithL p s` models JS `s.startsWith(p)`. -/
def startsWithL (p s : List Char) : Bool :=
  p.isPrefixOf s

/-- `containsSub n h` models JS `h.includes(n)`. -/
def containsSub (n h : List Char) : Bool :=
  h.tails.any fun t => n.isPrefixOf t

/-- Model of JS `s.split(sep)` for a single-character separator (the code only
ever splits step text on a single space). -/
def splitCh (sep : Char) : List Char → List (List Char)
  | [] => [[]]
  | c :: rest =>
    if c == sep then [] :: splitCh sep rest
    else
      match splitCh sep rest with
      | [] => [[c]]
      | h :: t => (c :: h) :: t

/-! ### Element-name extraction (`extractElementName`, command_utils.js 11-21)

The JS function first runs the regex `/\*([^*]+)\*/` (leftmost span of at
least one non-asterisk character between two asterisks) and returns the
trimmed capture; otherwise it trims the step and returns the last element of
`split(' ')`. -/

/-- Leftmost match of the regex `\*([^*]+)\*`: scan positions left to right;
at an asterisk the capture is the maximal run of non-asterisk characters that
is non-empty and followed by a closing asterisk. -/
def firstSpan : List Char → Option (List Char)
  | [] => none
  | c :: rest =>
    if c == '*' then
      let interior := rest.takeWhile fun d => d != '*'
      if interior != [] && interior.length < rest.length then some interior
      else firstSpan rest
    else firstSpan rest

/-- Whether the regex `\*([^*]+)\*` matches at the very start of the list. -/
def startsSpan : List Char → Bool
  | [] => false
  | c :: rest =>
    c == '*' &&
      (rest.takeWhile fun d => d != '*') != [] &&
      ((rest.takeWhile fun d => d != '*')).length < rest.length

/-- `extractElementName` from command_utils.js lines 11-21. -/
def extractElementName (step : List Char) : List Char :=
  match firstSpan step with
  | some interior => jsTrim interior
  | none => (splitCh ' ' (jsTrim step)).getLastD []

/-! ### Locator-strategy classification (`determineLocatorStrategy`,
command_utils.js 28-34) -/

/-- `determineLocatorStrategy` from command_utils.js lines 28-34.  Note the
source has no `css` case: an unmatched selector (including a `css=` one)
classifies as `unknown`. -/
def determineLocatorStrategy (sel : List Char) : List Char :=
  if sel.isEmpty then "unknown".toList
  else if startsWithL "~".toList sel then "accessibility-id".toList
  else if containsSub ":id/".toList sel || containsSub "resource-id".toList sel then
    "resource-id".toList
  else if startsWithL "//".toList sel || startsWithL "(".toList sel then
    "xpath".toList
  else "unknown".toList

/-- Modelled from the spec: the classifier exactly as claim C5 states it —
including the `css=` rule the spec lists, which is absent from the source.
Used only to compare the claimed rules against `determineLocatorStrategy`. -/
def classifySpecClaim (sel : List Char) : List Char :=
  if sel.isEmpty then "unknown".toList
  else if startsWithL "~".toList sel then "accessibility-id".toList
  else if containsSub ":id/".toList sel then "resource-id".toList
  else if startsWithL "//".toList sel || startsWithL "(".toList sel then
    "xpath".toList
  else if startsWithL "css=".toList sel then "css".toList
  else "unknown".toList

/-! ### Element resolver (`createFindElement`, command_utils.js 47-131)

`findElementArg ctx sel` is the exact string that the returned `findElement`
hands to `browser.$`, given whether the current driver context is a
`WEBVIEW` one.  A null/empty selector throws (modelled as `Except.error`). -/

/-- The quote characters stripped by the self-healing sanitizer
(`replace(/[`"']/g, '')`): backtick, double quote, single quote. -/
def quoteChars : List Char :=
  [Char.ofNat 96, Char.ofNat 34, Char.ofNat 39]

/-- Leftmost match of the regex `resourceId\(([^)]+)\)`: the (non-empty)
capture between `resourceId(` and the next `)`. -/
def findResourceIdArg : List Char → Option (List Char)
  | [] => none
  | c :: rest =>
    if "resourceId(".toList.isPrefixOf (c :: rest) then
      let after := (c :: rest).drop 11
      let inner := after.takeWhile fun d => d != ')'
      if inner != [] && inner.length < after.length then some inner
      else findResourceIdArg rest
    else findResourceIdArg rest

/-- Replace the first occurrence of `sub` (non-empty) in `s` by `repl`,
modelling JS `s.replace(sub, repl)` for a plain string pattern. -/
def replaceFirst (s sub repl : List Char) : List Char :=
  match s with
  | [] => []
  | c :: rest =>
    if sub.isPrefixOf (c :: rest) then repl ++ (c :: rest).drop sub.length
    else c :: replaceFirst rest sub repl

/-- The UiSelector sanitization of command_utils.js lines 90-101: if the
`resourceId(...)` operand is not already quoted, quote its first occurrence. -/
def uiSelectorSanitize (sel : List Char) : List Char :=
  match findResourceIdArg sel with
  | none => sel
  | some inner =>
    if startsWithL [Char.ofNat 34] inner then sel
    else replaceFirst sel inner (Char.ofNat 34 :: inner ++ [Char.ofNat 34])

/-- The case-insensitive free-text XPath fallback of command_utils.js
lines 120-129 (built over text, content-desc, name and label). -/
def flexibleXpath (sel : List Char) : List Char :=
  let low := jsToLower sel
  "//*[contains(translate(@text, 'ABCDEFGHIJKLMNOPQRSTUVWXYZ', 'abcdefghijklmnopqrstuvwxyz'), \"".toList
    ++ low ++ "\") or contains(translate(@content-desc, 'ABCDEFGHIJKLMNOPQRSTUVWXYZ', 'abcdefghijklmnopqrstuvwxyz'), \"".toList
    ++ low ++ "\") or contains(translate(@name, 'ABCDEFGHIJKLMNOPQRSTUVWXYZ', 'abcdefghijklmnopqrstuvwxyz'), \"".toList
    ++ low ++ "\") or contains(translate(@label, 'ABCDEFGHIJKLMNOPQRSTUVWXYZ', 'abcdefghijklmnopqrstuvwxyz'), \"".toList
    ++ low ++ "\")]".toList

/-- The argument `createFindElement`'s `findElement` passes to `browser.$`,
as a function of whether the session is in a WEBVIEW context.  Branches in
source order (command_utils.js 48-130). -/
def findElementArg (inWebView : Bool) (sel : List Char) : Except Unit (List Char) :=
  if sel.isEmpty then Except.error ()
  else if startsWithL "css=".toList (jsToLower sel) then Except.ok (sel.drop 4)
  else if inWebView then Except.ok sel
  else if startsWithL "resource-id:".toList (jsToLower sel) then
    Except.ok ("id:".toList ++ sel.drop 12)
  else if startsWithL "resource-id=".toList (jsToLower sel) then
    Except.ok ("id:".toList ++ sel.drop 12)
  else if startsWithL "new uiselector".toList (jsToLower sel) then
    Except.ok ("android=".toList ++ uiSelectorSanitize sel)
  else if startsWithL "~".toList sel then Except.ok sel
  else if startsWithL "name=".toList (jsToLower sel) then
    Except.ok ('~' :: sel.drop 5)
  else if startsWithL "label=".toList (jsToLower sel) then
    Except.ok ("//*[@label=\"".toList ++ sel.drop 6 ++ "\"]".toList)
  else if containsSub ":id/".toList sel then Except.ok ("id:".toList ++ sel)
  else Except.ok (flexibleXpath sel)

/-! ### Cache keys and the persisted POM store

Cache keys are the flat strings `` `${page} - ${element} - ${strategy}` ``.
The POM cache module splits stored keys with `key.split(' - ')` during the
legacy-format migration; `splitSep` models that JS split (leftmost,
non-overlapping occurrences of the three-character separator). -/

/-- The three-character key separator `" - "`. -/
def sepS : List Char := [' ', '-', ' ']

/-- A cache key `` `${page} - ${element} - ${strategy}` ``. -/
def mkKey (page element strategy : List Char) : List Char :=
  page ++ sepS ++ element ++ sepS ++ strategy

/-- Model of JS `key.split(' - ')`: split at leftmost non-overlapping
occurrences of `" - "`. -/
def splitSep : List Char → List (List Char)
  | [] => [[]]
  | [c] => [[c]]
  | [c, d] => [[c, d]]
  | c :: d :: e :: rest =>
    if c == ' ' && d == '-' && e == ' ' then [] :: splitSep rest
    else
      match splitSep (d :: e :: rest) with
      | [] => [[c]]
      | h :: t => (c :: h) :: t

/-- A JS-object-like store: association list in insertion order, keys
pairwise distinct once built through `objInsert`. -/
abbrev Store : Type := List (List Char × List Char)

/-- Keys of a store, in order. -/
def storeKeys (m : Store) : List (List Char) :=
  m.map Prod.fst

/-- `objLookup m k` models reading `m[k]` from a JS object. -/
def objLookup (m : Store) (k : List Char) : Option (List Char) :=
  match m.find? fun e => e.fst = k with
  | some e => some e.snd
  | none => none

/-- `objInsert m k v` models `m[k] = v`: overwrite in place if the key is
present, otherwise append. -/
def objInsert (m : Store) (k v : List Char) : Store :=
  if k ∈ storeKeys m then
    m.map fun e => if e.fst = k then (k, v) else e
  else m ++ [(k, v)]

/-- `objDelete m k` models `delete m[k]`. -/
def objDelete (m : Store) (k : List Char) : Store :=
  m.filter fun e => e.fst ≠ k

/-! ### Legacy-key migration (`loadCache`, POM cache module lines 15-55)

`loadCache` parses the persisted JSON into `parsed`, then rewrites every
two-part key `page - element` to `page - element - strategy` (strategy
inferred from the stored selector via `determineLocatorStrategy`), and calls
`saveCache()` iff at least one key was rewritten.  `loadCacheMigrate` is that
pure core: it maps the parsed entry list (in object-iteration order) to the
migrated store together with the `needsMigration` flag; reading the file and
the missing/corrupt-file fallbacks are outside the migration logic. -/

/-- Rewrite a single parsed entry, returning the (possibly migrated) entry
and whether it was a legacy two-part key. -/
def migrateEntry (e : List Char × List Char) : (List Char × List Char) × Bool :=
  match splitSep e.fst with
  | [page, element] =>
    ((mkKey page element (determineLocatorStrategy e.snd), e.snd), true)
  | _ => (e, false)

/-- The fold body of `loadCache`'s migration loop. -/
def loadFold (l : List (List Char × List Char)) (acc : Store × Bool) : Store × Bool :=
  l.foldl (fun a e => (objInsert a.fst (migrateEntry e).fst.fst (migrateEntry e).fst.snd,
                       a.snd || (migrateEntry e).snd)) acc

/-- The migration performed by `loadCache`: the migrated store (to become
`pomCache`) and the `needsMigration` flag (`true` iff `saveCache()` is called
to persist the migrated store immediately). -/
def loadCacheMigrate (parsed : List (List Char × List Char)) : Store × Bool :=
  loadFold parsed ([], false)

/-! ### Self-healing command execution (`executeCommand`,
command_utils.js 143-240)

The WebdriverIO and AI collaborators are modelled by an oracle environment:
`resolves s` says whether `findElement(s)` followed by the bounded
`waitForExist` succeeds (a null/empty selector always throws inside
`findElement`, handled by `resolveOk`); `healSuggestion` is what
`findCorrectSelector` returns; `actionOk` says whether `performAction`'s
click / setValue succeeds.  `ExecResult` records the outcome, the final
cache, and the observable effects the claims are about: number of
`saveCache()` calls, number of AI (`findCorrectSelector`) calls, number of
completed `performAction` calls, whether `browser.pause(1000)` ran before
returning, and which resolution phases were attempted. -/

structure Command where
  command : Option (List Char)
  selector : Option (List Char)
  value : Option (List Char)

structure ExecEnv where
  resolves : List Char → Bool
  healSuggestion : List Char
  actionOk : Bool

/-- The null-selector guard of `findElement` composed with the oracle:
resolution can only succeed for a non-empty selector. -/
def resolveOk (env : ExecEnv) (sel : List Char) : Bool :=
  !sel.isEmpty && env.resolves sel

/-- The self-healing sanitization `newSelector.replace(/[`"']/g, '')`. -/
def sanitizeSelector (sel : List Char) : List Char :=
  sel.filter fun c => !(quoteChars.contains c)

structure ExecResult where
  ok : Bool
  cache : Store
  saves : Nat
  aiCalls : Nat
  actions : Nat
  paused : Bool
  cacheHit : Bool
  triedCache : Bool
  triedDirect : Bool
deriving DecidableEq

/-- Step 4 of `executeCommand` (lines 231-239): perform the action, write
`finalSelector` back under a key recomputed from the selector actually used,
persist, then pause.  `performAction` here is not inside a try block, so an
action failure propagates. -/
def execFinish (env : ExecEnv) (cache : Store) (pageName elementName finalSelector : List Char)
    (saves0 aiCalls0 : Nat) (triedCache triedDirect : Bool) : ExecResult :=
  if env.actionOk then
    if finalSelector.isEmpty then
      { ok := true, cache := cache, saves := saves0, aiCalls := aiCalls0, actions := 1,
        paused := true, cacheHit := false, triedCache := triedCache, triedDirect := triedDirect }
    else
      { ok := true,
        cache := objInsert cache
          (mkKey pageName elementName (determineLocatorStrategy finalSelector)) finalSelector,
        saves := saves0 + 1, aiCalls := aiCalls0, actions := 1,
        paused := true, cacheHit := false, triedCache := triedCache, triedDirect := triedDirect }
  else
    { ok := false, cache := cache, saves := saves0, aiCalls := aiCalls0, actions := 0,
      paused := false, cacheHit := false, triedCache := triedCache, triedDirect := triedDirect }

/-- Step 3 of `executeCommand` (lines 202-229): self-healing.  One
`findCorrectSelector` call, sanitize the suggestion, retry resolution; a
failure here is terminal for the step. -/
def execHeal (env : ExecEnv) (cache : Store) (pageName elementName : List Char)
    (saves0 : Nat) (triedCache triedDirect : Bool) : ExecResult :=
  let healed := sanitizeSelector env.healSuggestion
  if resolveOk env healed then
    execFinish env cache pageName elementName healed saves0 1 triedCache triedDirect
  else
    { ok := false, cache := cache, saves := saves0, aiCalls := 1, actions := 0,
      paused := false, cacheHit := false, triedCache := triedCache, triedDirect := triedDirect }

/-- Step 2 of `executeCommand` (lines 191-201): a missing/empty selector is
an immediate failure that jumps straight to self-healing; otherwise try the
command's own selector with a bounded wait. -/
def execDirect (env : ExecEnv) (cmd : Command) (cache : Store)
    (pageName elementName : List Char) (saves0 : Nat) (triedCache : Bool) : ExecResult :=
  match cmd.selector with
  | some s =>
    if s.isEmpty then execHeal env cache pageName elementName saves0 triedCache false
    else if resolveOk env s then
      execFinish env cache pageName elementName s saves0 0 triedCache true
    else execHeal env cache pageName elementName saves0 triedCache true
  | none => execHeal env cache pageName elementName saves0 triedCache false

/-- `executeCommand` from command_utils.js lines 143-240.  Step 1 (lines
174-189): try the cached selector under the key computed from the page name,
the element name extracted from the original step text, and the strategy of
the command's own selector (empty fallback).  On any failure inside that try
block the entry is deleted and persisted, then execution falls through to
the direct attempt.  A cached success returns immediately. -/
def executeCommandM (env : ExecEnv) (cmd : Command) (cache : Store)
    (pageName origStep : List Char) : ExecResult :=
  let selStr := cmd.selector.getD []
  let strategy := determineLocatorStrategy selStr
  let elementName := extractElementName origStep
  let cacheKey := mkKey pageName elementName strategy
  match objLookup cache cacheKey with
  | some cached =>
    if cached.isEmpty then
      execDirect env cmd cache pageName elementName 0 false
    else if resolveOk env cached && env.actionOk then
      { ok := true, cache := cache, saves := 0, aiCalls := 0, actions := 1,
        paused := false, cacheHit := true, triedCache := true, triedDirect := false }
    else
      execDirect env cmd (objDelete cache cacheKey) pageName elementName 1 true
  | none => execDirect env cmd cache pageName elementName 0 false

/-! ### Page-aware orchestration (`executeTest`, test_executor.js)

The orchestrator walks the step list, emitting `running` before each step
and exactly one of `passed` / `failed` after it; any exception inside a step
emits `failed` and aborts the remaining steps.  The driver and the AI
translation service are again oracles, indexed by step number.  The
translation response-shape normalization of lines 832-846 is abstracted to
`Option Command` (`none` covers both an absent and an unusable response, in
which case a placeholder `verifyVisible` command with a null selector is
synthesized).  `browser.pause` and `switchToNative` are modelled as total,
matching the spec's assumption that the native surface is always available;
`switchToWebview` (context_utils.js 9-31) throws when no WEBVIEW context
appears within its polling window, modelled by the `webviewAvail` /
`webviewAvailAfter` oracle bits. -/

inductive Ctx where
  | native
  | webview
deriving DecidableEq

inductive ErrMsg where
  | webviewTimeout
  | stepFailed (step : List Char)
deriving DecidableEq

inductive Ev where
  | running (n : Nat)
  | passed (n : Nat)
  | failed (n : Nat) (e : ErrMsg)
deriving DecidableEq

structure OrchState where
  cache : Store
  pageName : List Char
  activeContext : Ctx

structure StepEnv where
  exec : ExecEnv
  webviewAvail : Bool
  webviewAvailAfter : Bool
  stabilityOk : Bool
  translate : Option Command
  nextTranslate : Option Command

/-- The placeholder command synthesized when the AI response is unusable
(test_executor.js lines 837-846). -/
def placeholderCmd : Command :=
  { command := some "verifyVisible".toList, selector := none, value := none }

/-- Model of JS `low.indexOf(needle)`-style position scan: the indices at
which `needle` occurs in `hay`. -/
def occurrencesAt (needle hay : List Char) : List Nat :=
  (List.range (hay.length + 1)).filter fun i => needle.isPrefixOf (hay.drop i)

/-- The page-context update of test_executor.js lines 709-713: the regex
`/wait for app to load the (.*) page/i`.  The match starts at the leftmost
occurrence of the literal prefix that still has `" page"` somewhere after
it; the greedy capture extends to the last such `" page"`.  An empty capture
is falsy and leaves the page name unchanged; otherwise the captured slice of
the original step is trimmed and lowercased. -/
def pageNameFromStep (step cur : List Char) : List Char :=
  let low := jsToLower step
  let pre := "wait for app to load the ".toList
  let starts := (occurrencesAt pre low).filter fun i =>
    (occurrencesAt " page".toList low).any fun j => i + pre.length ≤ j
  match starts.head? with
  | none => cur
  | some i =>
    match ((occurrencesAt " page".toList low).filter fun j => i + pre.length ≤ j).getLast? with
    | none => cur
    | some j =>
      let cap := (step.drop (i + pre.length)).take (j - (i + pre.length))
      if cap.isEmpty then cur else jsToLower (jsTrim cap)

/-- The proactive next-step wait of test_executor.js lines 715-798: look up a
cached selector by `` `${page} - ${element} -` `` prefix, invalidating it on
failure; otherwise stability-wait, translate the next step, and on a
successful resolution cache the new selector under a key built from its own
strategy; with no selector at all, degrade to a fixed pause.  All failures
inside are caught and logged; the function is total. -/
def waitObserveNext (se : StepEnv) (st : OrchState) (nextStep : List Char) : OrchState :=
  let elementName := extractElementName nextStep
  let pfx := st.pageName ++ sepS ++ elementName ++ [' ', '-']
  let ck? := (storeKeys st.cache).find? fun k => startsWithL pfx k
  let afterCache : OrchState × Option (List Char) :=
    match ck? with
    | some ck =>
      let cached := (objLookup st.cache ck).getD []
      if resolveOk se.exec cached then (st, some cached)
      else ({ st with cache := objDelete st.cache ck }, none)
    | none => (st, none)
  match afterCache.snd with
  | some _ => afterCache.fst
  | none =>
    let st1 := afterCache.fst
    let nextSel? : Option (List Char) :=
      if se.stabilityOk then
        match se.nextTranslate with
        | some c =>
          match c.selector with
          | some s => if s.isEmpty then none else some s
          | none => none
        | none => none
      else none
    match nextSel? with
    | some s =>
      if resolveOk se.exec s then
        { st1 with cache :=
            objInsert st1.cache (mkKey st1.pageName elementName (determineLocatorStrategy s)) s }
      else st1
    | none => st1

/-- One iteration of the `executeTest` step loop (test_executor.js 677-871),
between the `running` and the `passed`/`failed` emission: returns the updated
orchestration state and the error, if the iteration threw. -/
def runStep (se : StepEnv) (st : OrchState) (step : List Char)
    (next? : Option (List Char)) : OrchState × Option ErrMsg :=
  let low := jsToLower step
  if containsSub "launch the app".toList low then (st, none)
  else if containsSub "wait for app to load".toList low then
    if containsSub "webview".toList low then
      if se.webviewAvail then ({ st with activeContext := Ctx.webview }, none)
      else (st, some ErrMsg.webviewTimeout)
    else if containsSub "native view".toList low || containsSub "native".toList low then
      ({ st with activeContext := Ctx.native }, none)
    else
      let st1 := { st with pageName := pageNameFromStep step st.pageName }
      match next? with
      | none => (st1, none)
      | some nextStep => (waitObserveNext se st1 nextStep, none)
  else
    let st1 :=
      if st.activeContext = Ctx.webview then
        if se.webviewAvail then st else { st with activeContext := Ctx.native }
      else st
    let cmd0 :=
      match se.translate with
      | some c =>
        match c.command with
        | some cc => if cc.isEmpty then placeholderCmd else c
        | none => placeholderCmd
      | none => placeholderCmd
    let r := executeCommandM se.exec cmd0 st1.cache st1.pageName step
    if r.ok then
      let st2 := { st1 with cache := r.cache }
      let st3 :=
        if st2.activeContext = Ctx.webview then
          if se.webviewAvailAfter then st2 else { st2 with activeContext := Ctx.native }
        else st2
      (st3, none)
    else ({ st1 with cache := r.cache }, some (ErrMsg.stepFailed step))

/-- The `executeTest` step loop: emit `running` for each step, run it, emit
`passed` and continue, or emit `failed` with the error and abort the rest of
the run (test_executor.js 669-881). -/
def runLoop (env : Nat → StepEnv) : Nat → OrchState → List (List Char) →
    List Ev × Option ErrMsg × OrchState
  | _, st, [] => ([], none, st)
  | n, st, step :: rest =>
    match runStep (env n) st step rest.head? with
    | (st1, some e) => ([Ev.running n, Ev.failed n e], some e, st1)
    | (st1, none) =>
      let r := runLoop env (n + 1) st1 rest
      (Ev.running n :: Ev.passed n :: r.fst, r.snd)

/-- Entry point of the orchestration model: steps are numbered from 1 and the
app's selector cache starts as the loaded per-app store. -/
def executeTestModel (env : Nat → StepEnv) (cache0 : Store)
    (steps : List (List Char)) : List Ev × Option ErrMsg × OrchState :=
  runLoop env 1 { cache := cache0, pageName := "initial".toList, activeContext := Ctx.native } steps

/-- The trace of a run in which steps `n, n+1, …, n+k-1` all pass. -/
def passedTrace : Nat → Nat → List Ev
  | _, 0 => []
  | n, k + 1 => Ev.running n :: Ev.passed n :: passedTrace (n + 1) k

theorem splitSep_ne_nil (l : List Char) : splitSep l ≠ [] := by
  induction l using splitSep.induct with
  | case1 => simp [splitSep]
  | case2 c => simp [splitSep]
  | case3 c d => simp [splitSep]
  | case4 c d e rest h ih => simp [splitSep, h]
  | case5 c d e rest h hnil ih => exact absurd hnil ih
  | case6 c d e rest h hh t hcons ih => simp [splitSep, h, hcons]

theorem splitSep_sep (rest : List Char) :
    splitSep (' ' :: '-' :: ' ' :: rest) = [] :: splitSep rest := by
  simp [splitSep]

theorem splitSep_cons_sep {c d e : Char} (rest : List Char)
    (h : (c == ' ' && d == '-' && e == ' ') = true) :
    splitSep (c :: d :: e :: rest) = [] :: splitSep rest := by
  obtain ⟨⟨h1, h2⟩, h3⟩ : (c = ' ' ∧ d = '-') ∧ e = ' ' := by simpa using h
  subst h1; subst h2; subst h3
  exact splitSep_sep rest

theorem splitSep_cons_ne {c d e : Char} (rest : List Char)
    (h : ¬(c == ' ' && d == '-' && e == ' ') = true) (hh : List Char) (t : List (List Char))
    (hin : splitSep (d :: e :: rest) = hh :: t) :
    splitSep (c :: d :: e :: rest) = (c :: hh) :: t := by
  simp [splitSep, h, hin]

theorem splitSep_decomp : ∀ (k p : List Char) (r : List (List Char)),
    splitSep k = p :: r → r ≠ [] → ∃ v, k = p ++ sepS ++ v ∧ splitSep v = r := by
  intro k
  induction k using splitSep.induct with
  | case1 =>
    intro p r h hr
    simp [splitSep] at h
    simp [h.2] at hr
  | case2 c =>
    intro p r h hr
    simp [splitSep] at h
    simp [h.2] at hr
  | case3 c d =>
    intro p r h hr
    simp [splitSep] at h
    simp [h.2] at hr
  | case4 c d e rest h ih =>
    intro p r hEq hr
    rw [splitSep_cons_sep rest h] at hEq
    injection hEq with hp hrest
    obtain ⟨⟨hc, hd⟩, he⟩ : (c = ' ' ∧ d = '-') ∧ e = ' ' := by simpa using h
    subst hc; subst hd; subst he
    exact ⟨rest, by simp [sepS, ← hp], hrest⟩
  | case5 c d e rest h hnil ih => exact absurd hnil (splitSep_ne_nil _)
  | case6 c d e rest h hh t hcons ih =>
    intro p r hEq hr
    rw [splitSep_cons_ne rest h hh t hcons] at hEq
    injection hEq with hp ht
    subst ht
    obtain ⟨v, hv1, hv2⟩ := ih hh t hcons hr
    refine ⟨v, ?_, hv2⟩
    rw [← hp]
    simp only [List.cons_append, List.append_assoc]
    simp only [List.append_assoc] at hv1
    exact congrArg (fun l => c :: l) hv1

theorem splitSep_append_two (x y : List Char) :
    2 ≤ (splitSep (x ++ sepS ++ y)).length := by
  induction x with
  | nil =>
    have h1 := splitSep_ne_nil y
    rw [show ([] : List Char) ++ sepS ++ y = ' ' :: '-' :: ' ' :: y by simp [sepS],
      splitSep_sep]
    cases hy : splitSep y with
    | nil => exact absurd hy h1
    | cons a t => simp
  | cons c x' ih =>
    have hshape : ∃ d e rest, x' ++ sepS ++ y = d :: e :: rest := by
      cases x' with
      | nil => exact ⟨' ', '-', ' ' :: y, by simp [sepS]⟩
      | cons d x'' =>
        cases x'' with
        | nil => exact ⟨d, ' ', '-' :: ' ' :: y, by simp [sepS]⟩
        | cons e x''' => exact ⟨d, e, x''' ++ sepS ++ y, by simp⟩
    obtain ⟨d, e, rest, hde⟩ := hshape
    have hlist : (c :: x') ++ sepS ++ y = c :: d :: e :: rest := by
      simp only [List.cons_append, List.append_assoc]
      rw [← List.append_assoc, hde]
    rw [hlist]
    by_cases hcond : (c == ' ' && d == '-' && e == ' ') = true
    · rw [splitSep_cons_sep rest hcond]
      cases hrest : splitSep rest with
      | nil => exact absurd hrest (splitSep_ne_nil _)
      | cons a t => simp
    · cases hin : splitSep (d :: e :: rest) with
      | nil => exact absurd hin (splitSep_ne_nil _)
      | cons hh t =>
        rw [splitSep_cons_ne rest hcond hh t hin]
        have h2 := ih
        rw [hde, hin] at h2
        simp at h2 ⊢
        omega

theorem splitSep_first_piece : ∀ (k p : List Char) (r : List (List Char)),
    splitSep k = p :: r → r ≠ [] → ∀ u, splitSep (p ++ sepS ++ u) = p :: splitSep u := by
  intro k
  induction k using splitSep.induct with
  | case1 => intro p r h hr; simp [splitSep] at h; simp [h.2] at hr
  | case2 c => intro p r h hr; simp [splitSep] at h; simp [h.2] at hr
  | case3 c d => intro p r h hr; simp [splitSep] at h; simp [h.2] at hr
  | case4 c d e rest h ih =>
    intro p r hEq hr u
    rw [splitSep_cons_sep rest h] at hEq
    injection hEq with hp hrest
    rw [← hp]
    rw [show ([] : List Char) ++ sepS ++ u = ' ' :: '-' :: ' ' :: u by simp [sepS]]
    exact splitSep_sep u
  | case5 c d e rest h hnil ih => intro p r hEq hr; exact absurd hnil (splitSep_ne_nil _)
  | case6 c d e rest h hh t hcons ih =>
    intro p r hEq hr u
    rw [splitSep_cons_ne rest h hh t hcons] at hEq
    injection hEq with hp ht
    subst ht
    obtain ⟨v, hv1, _⟩ := splitSep_decomp (d :: e :: rest) hh t hcons hr
    have ihu := ih hh t hcons hr u
    rw [← hp]
    cases hh with
    | nil =>
      rw [show (c :: ([] : List Char)) ++ sepS ++ u = c :: ' ' :: '-' :: ' ' :: u by simp [sepS]]
      exact splitSep_cons_ne (' ' :: u) (by simp) [] (splitSep u) (splitSep_sep u)
    | cons x hh' =>
      cases hh' with
      | nil =>
        simp only [sepS, List.cons_append, List.nil_append] at hv1
        injection hv1 with hd hv1'
        injection hv1' with he hv1''
        rw [hd, he] at h
        have hinner : splitSep (x :: ' ' :: '-' :: ' ' :: u) = [x] :: splitSep u := by
          have hx : ([x] : List Char) ++ sepS ++ u = x :: ' ' :: '-' :: ' ' :: u := by
            simp [sepS]
          rw [← hx]; exact ihu
        rw [show (c :: [x]) ++ sepS ++ u = c :: x :: ' ' :: '-' :: ' ' :: u by simp [sepS]]
        exact splitSep_cons_ne ('-' :: ' ' :: u) h [x] (splitSep u) hinner
      | cons y hh'' =>
        simp only [List.cons_append] at hv1
        injection hv1 with hd hv1'
        injection hv1' with he hv1''
        rw [hd, he] at h
        have hinner : splitSep (x :: y :: (hh'' ++ sepS ++ u)) = (x :: y :: hh'') :: splitSep u := by
          have hx : (x :: y :: hh'') ++ sepS ++ u = x :: y :: (hh'' ++ sepS ++ u) := by simp
          rw [← hx]; exact ihu
        rw [show (c :: x :: y :: hh'') ++ sepS ++ u = c :: x :: y :: (hh'' ++ sepS ++ u) by simp]
        exact splitSep_cons_ne (hh'' ++ sepS ++ u) h (x :: y :: hh'') (splitSep u) hinner

theorem splitSep_mkKey_length {k p el : List Char} (h : splitSep k = [p, el])
    (t : List Char) : 3 ≤ (splitSep (mkKey p el t)).length := by
  have h1 : splitSep (p ++ sepS ++ (el ++ sepS ++ t)) = p :: splitSep (el ++ sepS ++ t) :=
    splitSep_first_piece k p [el] h (by simp) (el ++ sepS ++ t)
  have h2 : 2 ≤ (splitSep (el ++ sepS ++ t)).length := splitSep_append_two el t
  have h3 : mkKey p el t = p ++ sepS ++ (el ++ sepS ++ t) := by
    simp [mkKey, List.append_assoc]
  rw [h3, h1]
  simp only [List.length_cons]
  omega

theorem objInsert_keys (m : Store) (k v : List Char) :
    storeKeys (objInsert m k v) =
      if k ∈ storeKeys m then storeKeys m else storeKeys m ++ [k] := by
  unfold objInsert
  by_cases hk : k ∈ storeKeys m
  · rw [if_pos hk, if_pos hk]
    unfold storeKeys
    rw [List.map_map]
    apply List.map_congr_left
    intro e he
    by_cases h2 : e.fst = k <;> simp [h2]
  · rw [if_neg hk, if_neg hk]
    unfold storeKeys
    simp

theorem objInsert_mem (m : Store) (k v : List Char) (x : List Char × List Char)
    (h : x ∈ objInsert m k v) : x ∈ m ∨ x = (k, v) := by
  unfold objInsert at h
  by_cases hk : k ∈ storeKeys m
  · rw [if_pos hk] at h
    obtain ⟨e, he, hx⟩ := List.mem_map.mp h
    by_cases h2 : e.fst = k
    · right; rw [← hx]; simp [h2]
    · left; rw [← hx]; simpa [h2] using he
  · rw [if_neg hk] at h
    rcases List.mem_append.mp h with h1 | h1
    · exact Or.inl h1
    · exact Or.inr (List.mem_singleton.mp h1)

theorem objInsert_of_not_mem (m : Store) (k v : List Char) (hk : ¬k ∈ storeKeys m) :
    objInsert m k v = m ++ [(k, v)] := by
  unfold objInsert
  rw [if_neg hk]

theorem loadFold_cons (e : List Char × List Char) (l : List (List Char × List Char))
    (acc : Store × Bool) :
    loadFold (e :: l) acc =
      loadFold l (objInsert acc.fst (migrateEntry e).fst.fst (migrateEntry e).fst.snd,
        acc.snd || (migrateEntry e).snd) := by
  rfl

theorem loadFold_snd : ∀ (l : List (List Char × List Char)) (acc : Store × Bool),
    (loadFold l acc).snd = (acc.snd || l.any fun e => (migrateEntry e).snd) := by
  intro l
  induction l with
  | nil => intro acc; simp [loadFold]
  | cons e l ih =>
    intro acc
    rw [loadFold_cons, ih]
    simp [Bool.or_assoc]

theorem loadFold_mem : ∀ (l : List (List Char × List Char)) (acc : Store × Bool)
    (x : List Char × List Char), x ∈ (loadFold l acc).fst →
    x ∈ acc.fst ∨ ∃ e ∈ l, x = (migrateEntry e).fst := by
  intro l
  induction l with
  | nil => intro acc x hx; exact Or.inl hx
  | cons e l ih =>
    intro acc x hx
    rw [loadFold_cons] at hx
    rcases ih _ x hx with h1 | ⟨e', he', hx'⟩
    · rcases objInsert_mem _ _ _ _ h1 with h2 | h2
      · exact Or.inl h2
      · exact Or.inr ⟨e, List.mem_cons_self e l, h2⟩
    · exact Or.inr ⟨e', List.mem_cons_of_mem e he', hx'⟩

theorem loadFold_keys_nodup : ∀ (l : List (List Char × List Char)) (acc : Store × Bool),
    (storeKeys acc.fst).Nodup → (storeKeys (loadFold l acc).fst).Nodup := by
  intro l
  induction l with
  | nil => intro acc h; exact h
  | cons e l ih =>
    intro acc h
    rw [loadFold_cons]
    apply ih
    rw [objInsert_keys]
    by_cases hk : (migrateEntry e).fst.fst ∈ storeKeys acc.fst
    · rw [if_pos hk]; exact h
    · rw [if_neg hk]
      simp [List.nodup_append, h, hk]

theorem loadFold_eq_append : ∀ (l : List (List Char × List Char)) (acc : Store × Bool),
    (storeKeys acc.fst ++ l.map fun e => (migrateEntry e).fst.fst).Nodup →
    (loadFold l acc).fst = acc.fst ++ (l.map fun e => (migrateEntry e).fst) := by
  intro l
  induction l with
  | nil => intro acc h; simp [loadFold]
  | cons e l ih =>
    intro acc h
    rw [loadFold_cons]
    have hk : ¬(migrateEntry e).fst.fst ∈ storeKeys acc.fst := by
      intro hmem
      rw [List.nodup_append] at h
      exact h.2.2 hmem (by simp)
    rw [objInsert_of_not_mem _ _ _ hk]
    have hkeys : storeKeys (acc.fst ++ [(migrateEntry e).fst]) =
        storeKeys acc.fst ++ [(migrateEntry e).fst.fst] := by
      unfold storeKeys; simp
    have h2 : (storeKeys (acc.fst ++ [(migrateEntry e).fst]) ++
        l.map fun e => (migrateEntry e).fst.fst).Nodup := by
      rw [hkeys, List.append_assoc]
      simpa using h
    have := ih (acc.fst ++ [(migrateEntry e).fst],
      acc.snd || (migrateEntry e).snd) h2
    rw [this]
    simp

theorem migrateEntry_two {e : List Char × List Char} {p el : List Char}
    (h : splitSep e.fst = [p, el]) :
    migrateEntry e = ((mkKey p el (determineLocatorStrategy e.snd), e.snd), true) := by
  simp [migrateEntry, h]

theorem migrateEntry_id_of_notwo {e : List Char × List Char}
    (h : (splitSep e.fst).length ≠ 2) : migrateEntry e = (e, false) := by
  unfold migrateEntry
  rcases hs : splitSep e.fst with _ | ⟨p, _ | ⟨el, _ | ⟨q, t⟩⟩⟩
  · rfl
  · rfl
  · rw [hs] at h; simp at h
  · rfl

theorem migrateEntry_notwo (e : List Char × List Char) :
    (splitSep (migrateEntry e).fst.fst).length ≠ 2 := by
  rcases hs : splitSep e.fst with _ | ⟨p, _ | ⟨el, _ | ⟨q, t⟩⟩⟩
  · exact absurd hs (splitSep_ne_nil _)
  · rw [migrateEntry_id_of_notwo (by rw [hs]; simp)]
    rw [hs]; simp
  · rw [migrateEntry_two hs]
    have := splitSep_mkKey_length hs (determineLocatorStrategy e.snd)
    simp only []
    omega
  · rw [migrateEntry_id_of_notwo (by rw [hs]; simp)]
    rw [hs]; simp

/-- C3: loading a persisted cache rewrites every legacy two-part key
`page - element` to the three-part `page - element - strategy` form with the
strategy inferred from the stored selector via `determineLocatorStrategy`,
sets the needs-migration flag (so the upgraded store is persisted back
immediately), and the migration is idempotent: a second `loadCache` of the
persisted result performs no further migration and no save. -/
theorem c3_legacy_key_migration (parsed : List (List Char × List Char)) :
    ((∃ e ∈ parsed, (splitSep e.fst).length = 2) → (loadCacheMigrate parsed).snd = true) ∧
    ((parsed.map fun e => (migrateEntry e).fst.fst).Nodup →
      ∀ k v p el, (k, v) ∈ parsed → splitSep k = [p, el] →
        (mkKey p el (determineLocatorStrategy v), v) ∈ (loadCacheMigrate parsed).fst) ∧
    loadCacheMigrate (loadCacheMigrate parsed).fst = ((loadCacheMigrate parsed).fst, false) := by
  refine ⟨?_, ?_, ?_⟩
  · rintro ⟨e, he, hlen⟩
    unfold loadCacheMigrate
    rw [loadFold_snd]
    rcases hs : splitSep e.fst with _ | ⟨p, _ | ⟨el, _ | ⟨q, t⟩⟩⟩
    · exact absurd hs (splitSep_ne_nil _)
    · rw [hs] at hlen; simp at hlen
    · have hmig := migrateEntry_two hs
      simp only [Bool.false_or]
      rw [List.any_eq_true]
      exact ⟨e, he, by rw [hmig]⟩
    · rw [hs] at hlen; simp at hlen
  · intro hnd k v p el hmem hsplit
    unfold loadCacheMigrate
    rw [loadFold_eq_append parsed ([], false) (by simpa [storeKeys] using hnd)]
    simp only [List.nil_append]
    have hmig := migrateEntry_two (e := (k, v)) hsplit
    have : (mkKey p el (determineLocatorStrategy v), v) = (migrateEntry (k, v)).fst := by
      rw [hmig]
    rw [this]
    exact List.mem_map.mpr ⟨(k, v), hmem, rfl⟩
  · have hP : ∀ x ∈ (loadCacheMigrate parsed).fst, (splitSep x.fst).length ≠ 2 := by
      intro x hx
      rcases loadFold_mem parsed ([], false) x hx with h1 | ⟨e, _, hx'⟩
      · simp at h1
      · rw [hx']; exact migrateEntry_notwo e
    have hnodup : (storeKeys (loadCacheMigrate parsed).fst).Nodup :=
      loadFold_keys_nodup parsed ([], false) (by simp [storeKeys])
    have hid : ∀ e ∈ (loadCacheMigrate parsed).fst, migrateEntry e = (e, false) :=
      fun e he => migrateEntry_id_of_notwo (hP e he)
    have hmapid : ((loadCacheMigrate parsed).fst.map fun e => (migrateEntry e).fst) =
        (loadCacheMigrate parsed).fst := by
      rw [show ((loadCacheMigrate parsed).fst.map fun e => (migrateEntry e).fst) =
          (loadCacheMigrate parsed).fst.map id from
        List.map_congr_left fun e he => by rw [hid e he]; rfl]
      exact List.map_id _
    have hmapkeys : ((loadCacheMigrate parsed).fst.map fun e => (migrateEntry e).fst.fst) =
        storeKeys (loadCacheMigrate parsed).fst := by
      unfold storeKeys
      exact List.map_congr_left fun e he => by rw [hid e he]
    have hLF : loadCacheMigrate ((loadCacheMigrate parsed).fst) =
        loadFold ((loadCacheMigrate parsed).fst) ([], false) := rfl
    have hfst : (loadCacheMigrate (loadCacheMigrate parsed).fst).fst =
        (loadCacheMigrate parsed).fst := by
      rw [hLF]
      rw [loadFold_eq_append _ ([], false) (by simpa [storeKeys, hmapkeys] using hnodup)]
      simp [hmapid]
    have hsnd : (loadCacheMigrate (loadCacheMigrate parsed).fst).snd = false := by
      rw [hLF, loadFold_snd]
      simp only [Bool.false_or]
      rw [List.any_eq_false]
      intro e he
      simp [hid e he]
    exact Prod.ext hfst hsnd

/-- Witness for C3 on the concrete legacy store
`{"login - Login": "~loginButton"}`: the flag is set, the upgraded
three-part key carries the inferred accessibility-id strategy, and a second
load is the identity with no save. -/
theorem c3_legacy_key_migration_witness :
    (loadCacheMigrate [("login - Login".toList, "~loginButton".toList)]).snd = true ∧
    ("login - Login - accessibility-id".toList, "~loginButton".toList) ∈
      (loadCacheMigrate [("login - Login".toList, "~loginButton".toList)]).fst ∧
    loadCacheMigrate (loadCacheMigrate [("login - Login".toList, "~loginButton".toList)]).fst =
      ((loadCacheMigrate [("login - Login".toList, "~loginButton".toList)]).fst, false) := by
  have h := c3_legacy_key_migration [("login - Login".toList, "~loginButton".toList)]
  refine ⟨h.1 ⟨("login - Login".toList, "~loginButton".toList), by decide, by decide⟩, ?_, h.2.2⟩
  have hb := h.2.1 (by decide) "login - Login".toList "~loginButton".toList
    "login".toList "Login".toList (by decide) (by decide)
  have hkey : mkKey "login".toList "Login".toList
      (determineLocatorStrategy "~loginButton".toList) =
      "login - Login - accessibility-id".toList := by decide
  rw [hkey] at hb
  exact hb

/-- C5 counterexample: the claimed rule list says an explicit `css=` prefix
classifies as `css`, but `determineLocatorStrategy` has no `css` case and
returns `unknown` for the selector `"css=.btn"`. -/
theorem c5_css_rule_counterexample :
    classifySpecClaim "css=.btn".toList = "css".toList ∧
    determineLocatorStrategy "css=.btn".toList = "unknown".toList ∧
    determineLocatorStrategy "css=.btn".toList ≠ classifySpecClaim "css=.btn".toList := by
  decide

/-- C5 amended: `determineLocatorStrategy` is a total deterministic function
of the selector string implementing the source's rule list: empty input is
`unknown`; a `~` prefix yields `accessibility-id`; otherwise containing
`:id/` or the literal `resource-id` yields `resource-id`; otherwise a `//` or
`(` prefix yields `xpath`; everything else — including `css=`-prefixed
selectors, for which the source has no rule — yields `unknown`. -/
theorem c5_classifier_rules (s : List Char) :
    (s = [] → determineLocatorStrategy s = "unknown".toList) ∧
    (startsWithL "~".toList s = true →
      determineLocatorStrategy s = "accessibility-id".toList) ∧
    (startsWithL "~".toList s = false →
      (containsSub ":id/".toList s = true ∨ containsSub "resource-id".toList s = true) →
      determineLocatorStrategy s = "resource-id".toList) ∧
    (startsWithL "~".toList s = false → containsSub ":id/".toList s = false →
      containsSub "resource-id".toList s = false →
      (startsWithL "//".toList s = true ∨ startsWithL "(".toList s = true) →
      determineLocatorStrategy s = "xpath".toList) ∧
    (startsWithL "~".toList s = false → containsSub ":id/".toList s = false →
      containsSub "resource-id".toList s = false →
      startsWithL "//".toList s = false → startsWithL "(".toList s = false →
      determineLocatorStrategy s = "unknown".toList) := by
  refine ⟨?_, ?_, ?_, ?_, ?_⟩
  · intro h; subst h; decide
  · intro h1
    cases s with
    | nil => simp [startsWithL] at h1
    | cons c rest =>
      unfold determineLocatorStrategy
      rw [if_neg (by simp : ¬((c :: rest).isEmpty = true)), if_pos h1]
  · intro h1 h2
    cases s with
    | nil => rcases h2 with h2 | h2 <;> simp [containsSub] at h2
    | cons c rest =>
      unfold determineLocatorStrategy
      rw [if_neg (by simp : ¬((c :: rest).isEmpty = true)), if_neg (by rw [h1]; simp),
        if_pos (show (containsSub ":id/".toList (c :: rest) ||
          containsSub "resource-id".toList (c :: rest)) = true by
            rcases h2 with h2 | h2 <;> rw [h2] <;> simp)]
  · intro h1 h2 h3 h4
    cases s with
    | nil => rcases h4 with h4 | h4 <;> simp [startsWithL] at h4
    | cons c rest =>
      unfold determineLocatorStrategy
      rw [if_neg (by simp : ¬((c :: rest).isEmpty = true)), if_neg (by rw [h1]; simp),
        if_neg (by rw [h2, h3]; simp),
        if_pos (show (startsWithL "//".toList (c :: rest) ||
          startsWithL "(".toList (c :: rest)) = true by
            rcases h4 with h4 | h4 <;> rw [h4] <;> simp)]
  · intro h1 h2 h3 h4 h5
    cases s with
    | nil => decide
    | cons c rest =>
      unfold determineLocatorStrategy
      rw [if_neg (by simp : ¬((c :: rest).isEmpty = true)), if_neg (by rw [h1]; simp),
        if_neg (by rw [h2, h3]; simp), if_neg (by rw [h4, h5]; simp)]

/-- Witness for C5 on the spec's own scenario selectors. -/
theorem c5_classifier_rules_witness :
    determineLocatorStrategy "~loginButton".toList = "accessibility-id".toList ∧
    determineLocatorStrategy "com.example:id/login".toList = "resource-id".toList ∧
    determineLocatorStrategy "//android.widget.Button".toList = "xpath".toList :=
  ⟨(c5_classifier_rules _).2.1 (by decide),
   (c5_classifier_rules _).2.2.1 (by decide) (Or.inl (by decide)),
   (c5_classifier_rules _).2.2.2.1 (by decide) (by decide) (by decide) (Or.inl (by decide))⟩

/-- Modelled from the spec: a whitespace splitter, used only to state what
claim C8's "final whitespace-delimited token" would be. -/
def splitWsSpec : List Char → List (List Char)
  | [] => [[]]
  | c :: rest =>
    if isJsWs c then [] :: splitWsSpec rest
    else
      match splitWsSpec rest with
      | [] => [[c]]
      | h :: t => (c :: h) :: t

/-- Modelled from the spec: the final whitespace-delimited token of a text,
as claim C8 states the markerless fallback. -/
def lastWsTokenSpec (s : List Char) : List Char :=
  ((splitWsSpec s).filter fun t => t ≠ []).getLastD []

/-- Modelled from the amended claim: the final token of the trimmed text
delimited by the space character only, which is what `split(' ')` yields. -/
def lastSpaceTokenSpec (s : List Char) : List Char :=
  ((splitCh ' ' (jsTrim s)).filter fun t => t ≠ []).getLastD []

/-- C8 counterexample: the step `"Tap\tLogin"` has no asterisk span; its
final whitespace-delimited token is `"Login"`, but `extractElementName`
splits on the space character only and returns the whole string. -/
theorem c8_whitespace_token_counterexample :
    firstSpan "Tap\tLogin".toList = none ∧
    lastWsTokenSpec "Tap\tLogin".toList = "Login".toList ∧
    extractElementName "Tap\tLogin".toList = "Tap\tLogin".toList ∧
    extractElementName "Tap\tLogin".toList ≠ lastWsTokenSpec "Tap\tLogin".toList := by
  decide

theorem splitCh_cons_pos {sep c : Char} (rest : List Char) (h : (c == sep) = true) :
    splitCh sep (c :: rest) = [] :: splitCh sep rest := by
  simp [splitCh, h]

theorem splitCh_cons_neg {sep c : Char} (rest : List Char) (h : ¬(c == sep) = true)
    (z : List Char) (w : List (List Char)) (hs : splitCh sep rest = z :: w) :
    splitCh sep (c :: rest) = (c :: z) :: w := by
  simp [splitCh, h, hs]

theorem splitCh_ne_nil (sep : Char) (l : List Char) : splitCh sep l ≠ [] := by
  induction l with
  | nil => simp [splitCh]
  | cons c rest ih =>
    by_cases h : (c == sep) = true
    · simp [splitCh, h]
    · cases hr : splitCh sep rest with
      | nil => exact absurd hr ih
      | cons a t => simp [splitCh, h, hr]

theorem dropWhile_head_not (p : Char → Bool) : ∀ (l : List Char) (c : Char) (t : List Char),
    l.dropWhile p = c :: t → p c = false := by
  intro l
  induction l with
  | nil => intro c t h; simp at h
  | cons a l ih =>
    intro c t h
    rw [List.dropWhile_cons] at h
    by_cases ha : p a = true
    · rw [if_pos ha] at h
      exact ih c t h
    · rw [if_neg ha] at h
      injection h with h1 _
      rw [← h1]
      exact Bool.eq_false_iff.mpr ha

theorem jsTrim_getLast_not_ws (s : List Char) (c : Char)
    (h : (jsTrim s).getLast? = some c) : isJsWs c = false := by
  unfold jsTrim at h
  rw [List.getLast?_reverse] at h
  cases hx : ((s.dropWhile isJsWs).reverse.dropWhile isJsWs) with
  | nil => rw [hx] at h; simp at h
  | cons a t =>
    rw [hx] at h
    simp at h
    rw [← h]
    exact dropWhile_head_not isJsWs _ a t hx

theorem filter_ne_nil_getLast? : ∀ (L : List (List Char)) (t : List Char),
    L.getLast? = some t → t ≠ [] → (L.filter fun x => x ≠ []).getLast? = some t := by
  intro L
  induction L with
  | nil => intro t h; simp at h
  | cons x L ih =>
    intro t h ht
    cases L with
    | nil =>
      simp at h
      subst h
      simp [List.filter_cons, ht]
    | cons y L' =>
      rw [List.getLast?_cons_cons] at h
      have hrec := ih t h ht
      by_cases hx : x = []
      · subst hx
        rw [List.filter_cons, if_neg (by simp)]
        exact hrec
      · rw [List.filter_cons, if_pos (by simp [hx])]
        cases hf : (y :: L').filter (fun x => x ≠ []) with
        | nil => rw [hf] at hrec; simp at hrec
        | cons z w =>
          rw [hf] at hrec
          rw [List.getLast?_cons_cons]
          exact hrec

theorem splitCh_getLast_ne_nil : ∀ (l : List Char), l ≠ [] →
    (∀ c, l.getLast? = some c → (c == ' ') = false) →
    ∃ t, (splitCh ' ' l).getLast? = some t ∧ t ≠ [] := by
  intro l
  induction l with
  | nil => intro h; exact absurd rfl h
  | cons a l ih =>
    intro _ hlast
    cases l with
    | nil =>
      have ha : (a == ' ') = false := hlast a (by simp)
      refine ⟨[a], ?_, by simp⟩
      rw [show splitCh ' ' [a] = [[a]] by simp [splitCh, ha]]
      simp
    | cons b l' =>
      have hlast' : ∀ c, (b :: l').getLast? = some c → (c == ' ') = false := by
        intro c hc
        exact hlast c (by rw [List.getLast?_cons_cons]; exact hc)
      obtain ⟨t, ht1, ht2⟩ := ih (by simp) hlast'
      by_cases ha : (a == ' ') = true
      · refine ⟨t, ?_, ht2⟩
        rw [splitCh_cons_pos (b :: l') ha]
        cases hs : splitCh ' ' (b :: l') with
        | nil => exact absurd hs (splitCh_ne_nil _ _)
        | cons z w =>
          rw [hs] at ht1
          rw [List.getLast?_cons_cons]
          exact ht1
      · cases hs : splitCh ' ' (b :: l') with
        | nil => exact absurd hs (splitCh_ne_nil _ _)
        | cons z w =>
          rw [splitCh_cons_neg (b :: l') ha z w hs]
          cases w with
          | nil => exact ⟨a :: z, by simp, by simp⟩
          | cons w1 w' =>
            rw [hs, List.getLast?_cons_cons] at ht1
            rw [List.getLast?_cons_cons]
            exact ⟨t, ht1, ht2⟩

theorem firstSpan_at : ∀ (i : Nat) (s : List Char),
    (∀ j, j < i → startsSpan (s.drop j) = false) → startsSpan (s.drop i) = true →
    firstSpan s = some ((s.drop (i + 1)).takeWhile fun c => c != '*') := by
  intro i
  induction i with
  | zero =>
    intro s _ h0
    cases s with
    | nil => simp [startsSpan] at h0
    | cons c rest =>
      rw [List.drop_zero] at h0
      simp only [startsSpan, Bool.and_eq_true] at h0
      obtain ⟨⟨hc, hX⟩, hY⟩ := h0
      rw [show firstSpan (c :: rest) = some (rest.takeWhile fun d => d != '*') by
        simp [firstSpan, hc, hX, hY]]
      simp
  | succ i ih =>
    intro s hj hi
    cases s with
    | nil => rw [List.drop_nil] at hi; simp [startsSpan] at hi
    | cons c rest =>
      have h0 : startsSpan (c :: rest) = false := by
        have := hj 0 (Nat.succ_pos i)
        simpa using this
      have hfs : firstSpan (c :: rest) = firstSpan rest := by
        by_cases hc : (c == '*') = true
        · simp only [startsSpan, hc, Bool.true_and] at h0
          simp [firstSpan, hc, h0]
        · simp [firstSpan, hc]
      rw [hfs]
      have hj' : ∀ j, j < i → startsSpan (rest.drop j) = false := by
        intro j hjlt
        have := hj (j + 1) (Nat.succ_lt_succ hjlt)
        simpa [List.drop_succ_cons] using this
      have hi' : startsSpan (rest.drop i) = true := by
        have := hi
        rw [List.drop_succ_cons] at this
        exact this
      rw [ih rest hj' hi']
      rw [List.drop_succ_cons]

/-- C8 amended: when the step has an asterisk-delimited span (at least one
non-asterisk character between two asterisks), `extractElementName` returns
exactly the interior of the leftmost such span with surrounding whitespace
trimmed; when no span exists, it returns the final token of the trimmed step
delimited by the space character only (not by arbitrary whitespace, which is
the correction).  The function is pure and total by construction. -/
theorem c8_extract_element_name (s : List Char) (i : Nat) :
    ((∀ j, j < i → startsSpan (s.drop j) = false) → startsSpan (s.drop i) = true →
      extractElementName s = jsTrim ((s.drop (i + 1)).takeWhile fun c => c != '*')) ∧
    (firstSpan s = none → s ≠ [] → extractElementName s = lastSpaceTokenSpec s) := by
  constructor
  · intro hj hi
    unfold extractElementName
    rw [firstSpan_at i s hj hi]
  · intro hnone _
    unfold extractElementName
    rw [hnone]
    unfold lastSpaceTokenSpec
    by_cases htrim : jsTrim s = []
    · rw [htrim]; decide
    · have hlast : ∀ c, (jsTrim s).getLast? = some c → (c == ' ') = false := by
        intro c hc
        have hws := jsTrim_getLast_not_ws s c hc
        simp [isJsWs] at hws
        simp [hws.1]
      obtain ⟨t, ht1, ht2⟩ := splitCh_getLast_ne_nil (jsTrim s) htrim hlast
      have hf := filter_ne_nil_getLast? (splitCh ' ' (jsTrim s)) t ht1 ht2
      rw [List.getLastD_eq_getLast?, List.getLastD_eq_getLast?, ht1, hf]

/-- Witness for C8 on the spec's scenario steps. -/
theorem c8_extract_element_name_witness :
    extractElementName "Tap the *Login* button".toList = "Login".toList ∧
    extractElementName "Tap the Login button".toList = "button".toList := by
  constructor
  · have h := (c8_extract_element_name "Tap the *Login* button".toList 8).1
      (by decide) (by decide)
    rw [h]; decide
  · have h := (c8_extract_element_name "Tap the Login button".toList 0).2
      (by decide) (by decide)
    rw [h]; decide

/-- C7: in a WEBVIEW context, `findElement` passes the selector through to
the driver unchanged as a web-style query — only an explicit case-insensitive
`css=` prefix is stripped, and that stripping is honored in every context —
so none of the mobile-specific parsing rules（resource-id prefixes,
UiSelector literals, `~`, name=/label=, id-separator detection, free-text
XPath fallback) are applied. -/
theorem c7_webview_passthrough (s : List Char) (b : Bool) :
    (s ≠ [] → findElementArg true s =
      Except.ok (if startsWithL "css=".toList (jsToLower s) then s.drop 4 else s)) ∧
    (startsWithL "css=".toList (jsToLower s) = true →
      findElementArg b s = Except.ok (s.drop 4)) := by
  constructor
  · intro hne
    unfold findElementArg
    rw [if_neg (by simpa using hne)]
    by_cases hcss : startsWithL "css=".toList (jsToLower s) = true
    · rw [if_pos hcss, if_pos hcss]
    · rw [if_neg hcss, if_neg hcss, if_pos rfl]
  · intro hcss
    have hne : s ≠ [] := by
      intro h0
      rw [h0] at hcss
      simp [startsWithL, jsToLower] at hcss
    unfold findElementArg
    rw [if_neg (by simpa using hne), if_pos hcss]

/-- Witness for C7: an XPath selector passes through untouched in a WEBVIEW
context; a `css=` selector is stripped in both contexts. -/
theorem c7_webview_passthrough_witness :
    findElementArg true "//android.widget.Button".toList =
      Except.ok "//android.widget.Button".toList ∧
    findElementArg true "CSS=.login".toList = Except.ok ".login".toList ∧
    findElementArg false "css=.login".toList = Except.ok ".login".toList := by
  refine ⟨?_, ?_, ?_⟩
  · have h := (c7_webview_passthrough "//android.widget.Button".toList true).1 (by decide)
    rw [h, if_neg (by decide)]
  · have h := (c7_webview_passthrough "CSS=.login".toList true).1 (by decide)
    rw [h, if_pos (by decide)]
    rfl
  · exact (c7_webview_passthrough "css=.login".toList false).2 (by decide)

theorem objLookup_replace : ∀ (m : Store) (k v : List Char), k ∈ storeKeys m →
    objLookup (m.map fun e => if e.fst = k then (k, v) else e) k = some v := by
  intro m k v
  induction m with
  | nil => intro hk; simp [storeKeys] at hk
  | cons e m ih =>
    intro hk
    by_cases he : e.fst = k
    · simp [objLookup, List.find?, he]
    · have hk' : k ∈ storeKeys m := by
        rcases List.mem_cons.mp (show k ∈ e.fst :: storeKeys m from hk) with h | h
        · exact absurd h.symm he
        · exact h
      have := ih hk'
      simp only [List.map_cons, if_neg he]
      simp only [objLookup, List.find?] at this ⊢
      rw [show (decide (e.fst = k)) = false by simp [he]]
      exact this

theorem objLookup_append_single : ∀ (m : Store) (k v : List Char), ¬k ∈ storeKeys m →
    objLookup (m ++ [(k, v)]) k = some v := by
  intro m k v
  induction m with
  | nil => intro _; simp [objLookup, List.find?]
  | cons e m ih =>
    intro hk
    have he : ¬e.fst = k := fun h =>
      hk (show k ∈ e.fst :: storeKeys m by rw [h]; exact List.mem_cons_self _ _)
    have hk' : ¬k ∈ storeKeys m := fun h =>
      hk (show k ∈ e.fst :: storeKeys m from List.mem_cons_of_mem _ h)
    have := ih hk'
    simp only [List.cons_append, objLookup, List.find?] at this ⊢
    rw [show (decide (e.fst = k)) = false by simp [he]]
    exact this

theorem objLookup_objInsert_self (m : Store) (k v : List Char) :
    objLookup (objInsert m k v) k = some v := by
  unfold objInsert
  by_cases hk : k ∈ storeKeys m
  · rw [if_pos hk]; exact objLookup_replace m k v hk
  · rw [if_neg hk]; exact objLookup_append_single m k v hk

theorem execFinish_fields (env : ExecEnv) (cache : Store) (p e fs : List Char)
    (sv ai : Nat) (tc td : Bool) :
    (execFinish env cache p e fs sv ai tc td).aiCalls = ai ∧
    (execFinish env cache p e fs sv ai tc td).triedCache = tc ∧
    (execFinish env cache p e fs sv ai tc td).triedDirect = td := by
  unfold execFinish
  by_cases ha : env.actionOk = true
  · rw [if_pos ha]
    by_cases hse : fs.isEmpty = true
    · rw [if_pos hse]; exact ⟨rfl, rfl, rfl⟩
    · rw [if_neg hse]; exact ⟨rfl, rfl, rfl⟩
  · rw [if_neg ha]; exact ⟨rfl, rfl, rfl⟩

theorem execHeal_fields (env : ExecEnv) (cache : Store) (p e : List Char)
    (sv : Nat) (tc td : Bool) :
    (execHeal env cache p e sv tc td).aiCalls = 1 ∧
    (execHeal env cache p e sv tc td).triedCache = tc ∧
    (execHeal env cache p e sv tc td).triedDirect = td := by
  unfold execHeal
  by_cases hh : resolveOk env (sanitizeSelector env.healSuggestion) = true
  · rw [if_pos hh]
    exact execFinish_fields env cache p e (sanitizeSelector env.healSuggestion) sv 1 tc td
  · rw [if_neg hh]; exact ⟨rfl, rfl, rfl⟩

theorem execFinish_ok_shape (env : ExecEnv) (cache : Store) (p e fs : List Char)
    (sv ai : Nat) (tc td : Bool)
    (hok : (execFinish env cache p e fs sv ai tc td).ok = true) :
    (execFinish env cache p e fs sv ai tc td).cacheHit = false ∧
    (execFinish env cache p e fs sv ai tc td).paused = true ∧
    (execFinish env cache p e fs sv ai tc td).actions = 1 := by
  unfold execFinish at hok ⊢
  by_cases ha : env.actionOk = true
  · rw [if_pos ha] at hok ⊢
    by_cases hse : fs.isEmpty = true
    · rw [if_pos hse] at hok ⊢; exact ⟨rfl, rfl, rfl⟩
    · rw [if_neg hse] at hok ⊢; exact ⟨rfl, rfl, rfl⟩
  · rw [if_neg ha] at hok; simp at hok

theorem execHeal_ok_shape (env : ExecEnv) (cache : Store) (p e : List Char)
    (sv : Nat) (tc td : Bool)
    (hok : (execHeal env cache p e sv tc td).ok = true) :
    (execHeal env cache p e sv tc td).cacheHit = false ∧
    (execHeal env cache p e sv tc td).paused = true ∧
    (execHeal env cache p e sv tc td).actions = 1 := by
  unfold execHeal at hok ⊢
  by_cases hh : resolveOk env (sanitizeSelector env.healSuggestion) = true
  · rw [if_pos hh] at hok ⊢
    exact execFinish_ok_shape env cache p e (sanitizeSelector env.healSuggestion) sv 1 tc td hok
  · rw [if_neg hh] at hok; simp at hok

theorem execDirect_ok_shape (env : ExecEnv) (cmd : Command) (cache : Store)
    (p e : List Char) (sv : Nat) (tc : Bool)
    (hok : (execDirect env cmd cache p e sv tc).ok = true) :
    (execDirect env cmd cache p e sv tc).cacheHit = false ∧
    (execDirect env cmd cache p e sv tc).paused = true ∧
    (execDirect env cmd cache p e sv tc).actions = 1 := by
  cases hsel : cmd.selector with
  | none =>
    have hred : execDirect env cmd cache p e sv tc = execHeal env cache p e sv tc false := by
      simp only [execDirect, hsel]
    rw [hred] at hok ⊢
    exact execHeal_ok_shape env cache p e sv tc false hok
  | some s =>
    by_cases h1 : s.isEmpty = true
    · have hred : execDirect env cmd cache p e sv tc = execHeal env cache p e sv tc false := by
        simp only [execDirect, hsel]
        rw [if_pos h1]
      rw [hred] at hok ⊢
      exact execHeal_ok_shape env cache p e sv tc false hok
    · by_cases h2 : resolveOk env s = true
      · have hred : execDirect env cmd cache p e sv tc =
            execFinish env cache p e s sv 0 tc true := by
          simp only [execDirect, hsel]
          rw [if_neg h1, if_pos h2]
        rw [hred] at hok ⊢
        exact execFinish_ok_shape env cache p e s sv 0 tc true hok
      · have hred : execDirect env cmd cache p e sv tc = execHeal env cache p e sv tc true := by
          simp only [execDirect, hsel]
          rw [if_neg h1, if_neg h2]
        rw [hred] at hok ⊢
        exact execHeal_ok_shape env cache p e sv tc true hok

/-- C9: a command whose selector is null or empty (the synthesized
placeholder in particular) gets a cache key whose strategy component is
`unknown`; when no entry exists under that key, the cache branch is never
entered (so entries for the same page and element under any other strategy
are never consulted), the direct attempt is skipped, and execution proceeds
straight to the self-healing call. -/
theorem c9_null_selector_unknown_key (env : ExecEnv) (cmd : Command) (cache : Store)
    (pageName origStep : List Char)
    (hsel : cmd.selector = none ∨ cmd.selector = some [])
    (hmiss : objLookup cache
      (mkKey pageName (extractElementName origStep) "unknown".toList) = none) :
    determineLocatorStrategy (cmd.selector.getD []) = "unknown".toList ∧
    (executeCommandM env cmd cache pageName origStep).triedCache = false ∧
    (executeCommandM env cmd cache pageName origStep).triedDirect = false ∧
    (executeCommandM env cmd cache pageName origStep).aiCalls = 1 := by
  have hstrat : determineLocatorStrategy (cmd.selector.getD []) = "unknown".toList := by
    rcases hsel with h | h <;> rw [h] <;> decide
  have hred : executeCommandM env cmd cache pageName origStep =
      execHeal env cache pageName (extractElementName origStep) 0 false false := by
    simp only [executeCommandM, hstrat, hmiss]
    rcases hsel with h | h <;> simp [execDirect, h]
  have hf := execHeal_fields env cache pageName (extractElementName origStep) 0 false false
  rw [hred]
  exact ⟨hstrat, hf.2.1, hf.2.2, hf.1⟩

/-- Witness for C9: the synthesized placeholder command against a cache that
only has an accessibility-id entry for this page/element. -/
theorem c9_null_selector_unknown_key_witness :
    (executeCommandM
      { resolves := fun _ => false, healSuggestion := [], actionOk := true }
      placeholderCmd
      [("login - button - accessibility-id".toList, "~cached".toList)]
      "login".toList "Tap the Login button".toList).triedCache = false ∧
    (executeCommandM
      { resolves := fun _ => false, healSuggestion := [], actionOk := true }
      placeholderCmd
      [("login - button - accessibility-id".toList, "~cached".toList)]
      "login".toList "Tap the Login button".toList).aiCalls = 1 := by
  have h := c9_null_selector_unknown_key
    { resolves := fun _ => false, healSuggestion := [], actionOk := true }
    placeholderCmd
    [("login - button - accessibility-id".toList, "~cached".toList)]
    "login".toList "Tap the Login button".toList
    (Or.inl (by decide)) (by decide)
  exact ⟨h.2.1, h.2.2.2⟩

/-- C10: a successful cache-hit execution returns with the selector cache
completely unchanged — no entry added, overwritten or removed — and performs
no persistence write and no AI call; the one action is performed. -/
theorem c10_cache_hit_frame (env : ExecEnv) (cmd : Command) (cache : Store)
    (pageName origStep c : List Char)
    (hc : objLookup cache (mkKey pageName (extractElementName origStep)
      (determineLocatorStrategy (cmd.selector.getD []))) = some c)
    (hne : c ≠ []) (hres : env.resolves c = true) (hact : env.actionOk = true) :
    executeCommandM env cmd cache pageName origStep =
      { ok := true, cache := cache, saves := 0, aiCalls := 0, actions := 1,
        paused := false, cacheHit := true, triedCache := true, triedDirect := false } := by
  simp only [executeCommandM, hc]
  rw [if_neg (by simpa using hne)]
  rw [if_pos (by simp [resolveOk, hne, hres, hact])]

/-- Witness for C10 on a concrete cache-hit run. -/
theorem c10_cache_hit_frame_witness :
    executeCommandM
      { resolves := fun s => s == "~cached".toList, healSuggestion := [], actionOk := true }
      { command := some "click".toList, selector := some "~x".toList, value := none }
      [("login - button - accessibility-id".toList, "~cached".toList)]
      "login".toList "Tap the Login button".toList =
    { ok := true, cache := [("login - button - accessibility-id".toList, "~cached".toList)],
      saves := 0, aiCalls := 0, actions := 1, paused := false, cacheHit := true,
      triedCache := true, triedDirect := false } :=
  c10_cache_hit_frame _ _ _ _ _ "~cached".toList (by decide) (by decide) (by decide) (by decide)

/-- C1: with no cache entry under the command's key, a direct selector that
never resolves, and a healing suggestion whose sanitized form resolves,
`executeCommand` makes exactly one AI call, performs the action once, and
terminates with the cache extended by exactly one entry: the healed selector
stored under the key whose strategy component is recomputed from the healed
selector itself (not from the original command's selector); the pause runs
and one save persists the write. -/
theorem c1_self_healing_promotion (env : ExecEnv) (cmd : Command) (cache : Store)
    (pageName origStep s : List Char)
    (hsel : cmd.selector = some s) (hs : s ≠ [])
    (hfail : env.resolves s = false)
    (hmiss : objLookup cache (mkKey pageName (extractElementName origStep)
      (determineLocatorStrategy s)) = none)
    (hheal : resolveOk env (sanitizeSelector env.healSuggestion) = true)
    (hact : env.actionOk = true) :
    executeCommandM env cmd cache pageName origStep =
      { ok := true,
        cache := objInsert cache (mkKey pageName (extractElementName origStep)
          (determineLocatorStrategy (sanitizeSelector env.healSuggestion)))
          (sanitizeSelector env.healSuggestion),
        saves := 1, aiCalls := 1, actions := 1, paused := true, cacheHit := false,
        triedCache := false, triedDirect := true } ∧
    objLookup (executeCommandM env cmd cache pageName origStep).cache
      (mkKey pageName (extractElementName origStep)
        (determineLocatorStrategy (sanitizeSelector env.healSuggestion))) =
      some (sanitizeSelector env.healSuggestion) := by
  have hsane : sanitizeSelector env.healSuggestion ≠ [] := by
    intro h0
    rw [h0] at hheal
    simp [resolveOk] at hheal
  have hmain : executeCommandM env cmd cache pageName origStep =
      { ok := true,
        cache := objInsert cache (mkKey pageName (extractElementName origStep)
          (determineLocatorStrategy (sanitizeSelector env.healSuggestion)))
          (sanitizeSelector env.healSuggestion),
        saves := 1, aiCalls := 1, actions := 1, paused := true, cacheHit := false,
        triedCache := false, triedDirect := true } := by
    simp only [executeCommandM, hsel, Option.getD_some, hmiss]
    simp only [execDirect, hsel]
    rw [if_neg (by simpa using hs)]
    rw [if_neg (by simp [resolveOk, hfail])]
    unfold execHeal
    rw [if_pos hheal]
    unfold execFinish
    rw [if_pos hact]
    rw [if_neg (by simpa using hsane)]
  refine ⟨hmain, ?_⟩
  rw [hmain]
  exact objLookup_objInsert_self _ _ _

/-- Witness for C1: page "login", step "Tap the *Login* button", a dead
direct selector, and a healing suggestion `"~Login"` wrapped in quotes that
the sanitizer strips. -/
theorem c1_self_healing_promotion_witness :
    (executeCommandM
      { resolves := fun s => s == "~Login".toList,
        healSuggestion := "\"~Login\"".toList, actionOk := true }
      { command := some "click".toList, selector := some "#bad".toList, value := none }
      [] "login".toList "Tap the *Login* button".toList).cache =
    [("login - Login - accessibility-id".toList, "~Login".toList)] := by
  have h := (c1_self_healing_promotion
    { resolves := fun s => s == "~Login".toList,
      healSuggestion := "\"~Login\"".toList, actionOk := true }
    { command := some "click".toList, selector := some "#bad".toList, value := none }
    [] "login".toList "Tap the *Login* button".toList "#bad".toList
    (by decide) (by decide) (by decide) (by decide) (by decide) (by decide)).1
  rw [h]
  decide

/-- C4 counterexample: the claim says every successfully executed command is
followed by the settle pause before returning, but a cache-hit success
returns immediately after the action with no pause. -/
theorem c4_no_pause_on_cache_hit_counterexample :
    ¬ (∀ (env : ExecEnv) (cmd : Command) (cache : Store) (pageName origStep : List Char),
        (executeCommandM env cmd cache pageName origStep).ok = true →
        (executeCommandM env cmd cache pageName origStep).paused = true) := by
  intro hclaim
  have h := hclaim
    { resolves := fun s => s == "~cached".toList, healSuggestion := [], actionOk := true }
    { command := some "click".toList, selector := some "~x".toList, value := none }
    [("login - button - accessibility-id".toList, "~cached".toList)]
    "login".toList "Tap the Login button".toList (by decide)
  exact absurd h (by decide)

/-- C4 amended: every successful `executeCommand` performs the action once;
on the direct and healed resolution paths the fixed settle pause runs before
returning, but on the cache-hit path the function returns immediately after
the action without the pause. -/
theorem c4_settle_pause_except_cache_hit (env : ExecEnv) (cmd : Command) (cache : Store)
    (pageName origStep : List Char)
    (hok : (executeCommandM env cmd cache pageName origStep).ok = true) :
    (executeCommandM env cmd cache pageName origStep).actions = 1 ∧
    ((executeCommandM env cmd cache pageName origStep).cacheHit = true →
      (executeCommandM env cmd cache pageName origStep).paused = false) ∧
    ((executeCommandM env cmd cache pageName origStep).cacheHit = false →
      (executeCommandM env cmd cache pageName origStep).paused = true) := by
  cases hl : objLookup cache (mkKey pageName (extractElementName origStep)
      (determineLocatorStrategy (cmd.selector.getD []))) with
  | none =>
    have hred : executeCommandM env cmd cache pageName origStep =
        execDirect env cmd cache pageName (extractElementName origStep) 0 false := by
      simp only [executeCommandM, hl]
    rw [hred] at hok ⊢
    have h := execDirect_ok_shape env cmd cache pageName (extractElementName origStep) 0 false hok
    exact ⟨h.2.2, fun hc => absurd hc (by simp [h.1]), fun _ => h.2.1⟩
  | some cached =>
    by_cases h1 : cached.isEmpty = true
    · have hred : executeCommandM env cmd cache pageName origStep =
          execDirect env cmd cache pageName (extractElementName origStep) 0 false := by
        simp only [executeCommandM, hl]
        rw [if_pos h1]
      rw [hred] at hok ⊢
      have h := execDirect_ok_shape env cmd cache pageName (extractElementName origStep) 0 false hok
      exact ⟨h.2.2, fun hc => absurd hc (by simp [h.1]), fun _ => h.2.1⟩
    · by_cases h2 : (resolveOk env cached && env.actionOk) = true
      · have hred : executeCommandM env cmd cache pageName origStep =
            { ok := true, cache := cache, saves := 0, aiCalls := 0, actions := 1,
              paused := false, cacheHit := true, triedCache := true, triedDirect := false } := by
          simp only [executeCommandM, hl]
          rw [if_neg h1, if_pos h2]
        rw [hred]
        exact ⟨rfl, fun _ => rfl, fun hc => absurd hc (by simp)⟩
      · have hred : executeCommandM env cmd cache pageName origStep =
            execDirect env cmd (objDelete cache (mkKey pageName
              (extractElementName origStep) (determineLocatorStrategy (cmd.selector.getD []))))
              pageName (extractElementName origStep) 1 true := by
          simp only [executeCommandM, hl]
          rw [if_neg h1, if_neg h2]
        rw [hred] at hok ⊢
        have h := execDirect_ok_shape env cmd (objDelete cache (mkKey pageName
          (extractElementName origStep) (determineLocatorStrategy (cmd.selector.getD []))))
          pageName (extractElementName origStep) 1 true hok
        exact ⟨h.2.2, fun hc => absurd hc (by simp [h.1]), fun _ => h.2.1⟩

/-- Witness for C4 on a concrete direct-resolution run (pause runs). -/
theorem c4_settle_pause_except_cache_hit_witness :
    (executeCommandM
      { resolves := fun s => s == "~ok".toList, healSuggestion := [], actionOk := true }
      { command := some "click".toList, selector := some "~ok".toList, value := none }
      [] "login".toList "Tap the Login button".toList).paused = true := by
  have h := c4_settle_pause_except_cache_hit
    { resolves := fun s => s == "~ok".toList, healSuggestion := [], actionOk := true }
    { command := some "click".toList, selector := some "~ok".toList, value := none }
    [] "login".toList "Tap the Login button".toList (by decide)
  exact h.2.2 (by decide)

theorem passedTrace_not_failed (m : Nat) (e : ErrMsg) :
    ∀ (n k : Nat), Ev.failed m e ∉ passedTrace n k := by
  intro n k
  induction k generalizing n with
  | zero => simp [passedTrace]
  | succ k ih => simp [passedTrace, ih (n + 1)]

theorem passedTrace_mem_running (m : Nat) : ∀ (n k : Nat),
    Ev.running m ∈ passedTrace n k ↔ (n ≤ m ∧ m < n + k) := by
  intro n k
  induction k generalizing n with
  | zero => simp [passedTrace]
  | succ k ih =>
    simp [passedTrace, ih (n + 1)]
    try omega

theorem passedTrace_mem_passed (m : Nat) : ∀ (n k : Nat),
    Ev.passed m ∈ passedTrace n k ↔ (n ≤ m ∧ m < n + k) := by
  intro n k
  induction k generalizing n with
  | zero => simp [passedTrace]
  | succ k ih =>
    simp [passedTrace, ih (n + 1)]
    try omega

/-- Every iteration of the step loop never raises for a page-load-wait step
that does not mention the webview: the launch branch, the native-switch
branch and the proactive-wait branch are all total, so such a step's handler
returns without an error. -/
theorem runStep_wait_ok (se : StepEnv) (st : OrchState) (step : List Char)
    (next? : Option (List Char))
    (hw : containsSub "wait for app to load".toList (jsToLower step) = true)
    (hnw : containsSub "webview".toList (jsToLower step) = false) :
    (runStep se st step next?).snd = none := by
  simp only [runStep]
  by_cases hl : containsSub "launch the app".toList (jsToLower step) = true
  · rw [if_pos hl]
  · rw [if_neg hl, if_pos hw, if_neg (by rw [hnw]; simp)]
    by_cases hn : (containsSub "native view".toList (jsToLower step) ||
        containsSub "native".toList (jsToLower step)) = true
    · rw [if_pos hn]
    · rw [if_neg hn]
      cases next? with
      | none => rfl
      | some nextStep => rfl

/-- Structure of a full run: either every step passes (the trace is exactly
running/passed pairs for steps n..n+N-1) or there is a unique failing index:
the steps before it pass, the failing step's handler returns an error, its
trace ends with running/failed, and nothing is emitted for later steps. -/
theorem runLoop_shape (env : Nat → StepEnv) : ∀ (steps : List (List Char)) (n : Nat)
    (st : OrchState),
    ((runLoop env n st steps).snd.fst = none ∧
      (runLoop env n st steps).fst = passedTrace n steps.length) ∨
    (∃ j e s stp stE, j < steps.length ∧ steps[j]? = some s ∧
      runStep (env (n + j)) stp s steps[j + 1]? = (stE, some e) ∧
      (runLoop env n st steps).snd.fst = some e ∧
      (runLoop env n st steps).fst =
        passedTrace n j ++ [Ev.running (n + j), Ev.failed (n + j) e]) := by
  intro steps
  induction steps with
  | nil => intro n st; exact Or.inl ⟨rfl, rfl⟩
  | cons step rest ih =>
    intro n st
    cases hr : runStep (env n) st step rest.head? with
    | mk st1 o =>
      cases o with
      | some e =>
        refine Or.inr ⟨0, e, step, st, st1, by simp, by simp, ?_, ?_, ?_⟩
        · rw [Nat.add_zero]
          rw [show (step :: rest)[0 + 1]? = rest.head? by
            rw [List.getElem?_cons_succ, ← List.head?_eq_getElem?]]
          exact hr
        · simp only [runLoop, hr]
        · simp only [runLoop, hr, passedTrace, Nat.add_zero, List.nil_append]
      | none =>
        have hloop : runLoop env n st (step :: rest) =
            (Ev.running n :: Ev.passed n :: (runLoop env (n + 1) st1 rest).fst,
              (runLoop env (n + 1) st1 rest).snd) := by
          simp only [runLoop, hr]
        rcases ih (n + 1) st1 with ⟨h1, h2⟩ | ⟨j, e, s, stp, stE, hj, hs, hrs, hsnd, htr⟩
        · refine Or.inl ⟨?_, ?_⟩
          · rw [hloop]; exact h1
          · rw [hloop]
            simp only [List.length_cons, passedTrace]
            rw [h2]
        · refine Or.inr ⟨j + 1, e, s, stp, stE, by simp; omega, ?_, ?_, ?_, ?_⟩
          · rw [List.getElem?_cons_succ]; exact hs
          · rw [show n + (j + 1) = n + 1 + j by omega, List.getElem?_cons_succ]
            exact hrs
          · rw [hloop]; exact hsnd
          · rw [hloop]
            simp only [passedTrace, List.cons_append]
            rw [htr]
            have : n + 1 + j = n + (j + 1) := by omega
            rw [this]

/-- C6: the orchestrator is fail-fast.  Every run either emits exactly
running/passed for each of the N steps in order, or there is a step k
(1 ≤ k ≤ N) — the first whose handler raises — such that outcomes are
emitted for steps 1..k only: running/passed pairs for 1..k-1, then running
and failed (with the error detail) for k, and no outcome of any kind for
steps k+1..N. -/
theorem c6_fail_fast (env : Nat → StepEnv) (cache0 : Store) (steps : List (List Char)) :
    ((executeTestModel env cache0 steps).snd.fst = none ∧
      (executeTestModel env cache0 steps).fst = passedTrace 1 steps.length) ∨
    (∃ k e s stp stE, 1 ≤ k ∧ k ≤ steps.length ∧ steps[k - 1]? = some s ∧
      runStep (env k) stp s steps[k]? = (stE, some e) ∧
      (executeTestModel env cache0 steps).snd.fst = some e ∧
      (executeTestModel env cache0 steps).fst =
        passedTrace 1 (k - 1) ++ [Ev.running k, Ev.failed k e]) := by
  rcases runLoop_shape env steps 1
      { cache := cache0, pageName := "initial".toList, activeContext := Ctx.native } with
    ⟨h1, h2⟩ | ⟨j, e, s, stp, stE, hj, hs, hrs, hsnd, htr⟩
  · exact Or.inl ⟨h1, h2⟩
  · refine Or.inr ⟨j + 1, e, s, stp, stE, by omega, by omega, ?_, ?_, hsnd, ?_⟩
    · rw [Nat.add_sub_cancel]; exact hs
    · rw [show (1 : Nat) + j = j + 1 by omega] at hrs
      exact hrs
    · rw [Nat.add_sub_cancel]
      rw [show (1 + j) = (j + 1) from by omega] at htr
      exact htr

/-- C2 counterexample: the claim says a page-load-wait step never emits
`failed`, but the step `"wait for app to load webview page"` fails with the
context-switch timeout when no WEBVIEW context ever appears, and the
orchestrator emits `failed` for it. -/
theorem c2_webview_wait_failed_counterexample :
    ¬ (∀ (env : Nat → StepEnv) (cache0 : Store) (steps : List (List Char)) (i : Nat)
        (s : List Char), steps[i]? = some s →
        containsSub "wait for app to load".toList (jsToLower s) = true →
        ∀ e, Ev.failed (i + 1) e ∉ (executeTestModel env cache0 steps).fst) := by
  intro hclaim
  have h := hclaim
    (fun _ =>
      { exec := { resolves := fun _ => false, healSuggestion := [], actionOk := false },
        webviewAvail := false, webviewAvailAfter := false, stabilityOk := false,
        translate := none, nextTranslate := none })
    [] ["wait for app to load webview page".toList] 0
    "wait for app to load webview page".toList rfl (by decide) ErrMsg.webviewTimeout
  exact h (by decide)

/-- C2 amended: a step containing the page-load-wait phrase whose text does
not name the webview never emits `failed`: every error raised while handling
it (cache probing, snapshot stabilization, translation, element waits) is
absorbed, degrading at worst to a fixed pause, and the step emits `passed`
whenever it is reached.  (A wait step naming "webview" may fail: the WEBVIEW
context switch propagates its timeout, per the counterexample.) -/
theorem c2_wait_step_passes (env : Nat → StepEnv) (cache0 : Store)
    (steps : List (List Char)) (i : Nat) (s : List Char)
    (hs : steps[i]? = some s)
    (hw : containsSub "wait for app to load".toList (jsToLower s) = true)
    (hnw : containsSub "webview".toList (jsToLower s) = false) :
    (∀ e, Ev.failed (i + 1) e ∉ (executeTestModel env cache0 steps).fst) ∧
    (Ev.running (i + 1) ∈ (executeTestModel env cache0 steps).fst →
      Ev.passed (i + 1) ∈ (executeTestModel env cache0 steps).fst) := by
  simp only [executeTestModel]
  rcases runLoop_shape env steps 1
      { cache := cache0, pageName := "initial".toList, activeContext := Ctx.native } with
    ⟨h1, h2⟩ | ⟨j, e', s', stp, stE, hj, hs', hrs', hsnd, htr⟩
  · constructor
    · intro e
      rw [h2]
      exact passedTrace_not_failed (i + 1) e 1 steps.length
    · intro hrun
      rw [h2] at hrun ⊢
      rw [passedTrace_mem_running] at hrun
      rw [passedTrace_mem_passed]
      exact hrun
  · have hne : i ≠ j := by
      intro hij
      subst hij
      rw [hs] at hs'
      injection hs' with hss
      subst hss
      have := runStep_wait_ok (env (1 + i)) stp s steps[i + 1]? hw hnw
      rw [hrs'] at this
      simp at this
    constructor
    · intro e hmem
      rw [htr] at hmem
      rcases List.mem_append.mp hmem with hm | hm
      · exact passedTrace_not_failed (i + 1) e 1 j hm
      · rcases List.mem_cons.mp hm with hm1 | hm1
        · exact absurd hm1 (by simp)
        · rcases List.mem_cons.mp hm1 with hm2 | hm2
          · injection hm2 with h1 _
            exact hne (by omega)
          · simp at hm2
    · intro hrun
      rw [htr] at hrun ⊢
      rcases List.mem_append.mp hrun with hm | hm
      · rw [passedTrace_mem_running] at hm
        apply List.mem_append.mpr
        left
        rw [passedTrace_mem_passed]
        exact hm
      · rcases List.mem_cons.mp hm with hm1 | hm1
        · injection hm1 with h1
          exact absurd (by omega : i = j) hne
        · rcases List.mem_cons.mp hm1 with hm2 | hm2
          · exact absurd hm2 (by simp)
          · simp at hm2

/-- Witness for C2 on a concrete run: a plain page-load wait step passes even
though every driver and AI call in its handler fails. -/
theorem c2_wait_step_passes_witness :
    Ev.passed 1 ∈ (executeTestModel
      (fun _ =>
        { exec := { resolves := fun _ => false, healSuggestion := [], actionOk := false },
          webviewAvail := false, webviewAvailAfter := false, stabilityOk := false,
          translate := none, nextTranslate := none })
      [] ["wait for app to load the Home page".toList, "Tap the Login button".toList]).fst := by
  have h := (c2_wait_step_passes
    (fun _ =>
      { exec := { resolves := fun _ => false, healSuggestion := [], actionOk := false },
        webviewAvail := false, webviewAvailAfter := false, stabilityOk := false,
        translate := none, nextTranslate := none })
    [] ["wait for app to load the Home page".toList, "Tap the Login button".toList] 0
    "wait for app to load the Home page".toList rfl (by decide) (by decide)).2
  exact h (by decide)
